import Mathlib

/-!
Verification of the chunked watermark streaming pipeline (`inference_av.py`)
and the augmentation composition engine (`videoseal/augmentation/augmenter.py`).

Frames are modelled as flat lists of rational pixel values; the neural
embed/detect model, the interpolation kernel, the individual augmentation
bodies and the mask embedder are external collaborators and appear as
function parameters, constrained only by the interface contract the spec
gives them.
-/

set_option autoImplicit false

namespace AWT

/-- A single decoded frame: its pixel values, flattened. -/
abbrev Frame := List ℚ

/-- Fuel-indexed chunk splitter: `chunksGo N fuel xs` takes successive
prefixes of length `N` from `xs`, consuming at most `fuel` chunks. -/
def chunksGo (N : ℕ) : ℕ → List Frame → List (List Frame)
  | 0, _ => []
  | _ + 1, [] => []
  | fuel + 1, x :: xs => (x :: xs).take N :: chunksGo N fuel ((x :: xs).drop N)

/-- The chunk loop `for i in range(0, len(decoder), chunk_size): decoder[i : i + chunk_size]`
of `embed_video` / `analyze_video`: consecutive slices of length `chunk_size`
(the last possibly shorter), in temporal order. -/
def chunkList (N : ℕ) (xs : List Frame) : List (List Frame) :=
  chunksGo N xs.length xs

/-- Pixel normalization `chunk.data.float() / 255.0`. -/
def normalizeChunk (chunk : List Frame) : List Frame :=
  chunk.map (fun f => f.map (fun v => v / 255))

/-- Truncation toward zero, the semantics of a float-to-integer cast. -/
def truncTowardZero (x : ℚ) : ℤ :=
  if 0 ≤ x then ⌊x⌋ else ⌈x⌉

/-- The `.byte()` cast of a float tensor entry: truncate toward zero and
wrap modulo 256 (no clamping/saturation). -/
def byteCast (x : ℚ) : ℤ :=
  (truncTowardZero x).emod 256

/-- Denormalization in `process_video_chunk`: `(processed_clip * 255.0).byte()`,
applied entrywise. -/
def denormPixel (v : ℚ) : ℚ :=
  ((byteCast (v * 255) : ℤ) : ℚ)

/-- `process_video_chunk(chunk, message_bits)`: normalize to `[0,1]`, run
`video_model.embed`, then denormalize with `(· * 255.0).byte()`.
The model is the external `embed` parameter. -/
def process_video_chunk (embed : List Frame → List ℕ → List Frame)
    (chunk : List Frame) (message_bits : List ℕ) : List Frame :=
  let clip_tensor := normalizeChunk chunk
  let processed_clip := embed clip_tensor message_bits
  processed_clip.map (fun f => f.map denormPixel)

/-- The message generation `torch.randint(0, 2, (1, 96))` of `embed_video`:
96 independent draws from the injected random source, reduced to a bit. -/
def genMessage (r : ℕ → ℕ) : List ℕ :=
  (List.range 96).map (fun i => r i % 2)

/-- The observable outcome of one `embed_video` call: the frames written to
the encoder, the bit list returned to the caller, and the message supplied
to `model.embed` at each chunk iteration. -/
structure EmbedOut where
  output : List Frame
  returned : List ℕ
  msgsSupplied : List (List ℕ)
  deriving DecidableEq

/-- `embed_video(input_path, output_path, chunk_size)`: generate the random
message once, then for each chunk in temporal order run
`process_video_chunk(frames, message_bits.clone())` and write the result.
`r` is the random source backing `torch.randint`. -/
def embed_video (embed : List Frame → List ℕ → List Frame) (r : ℕ → ℕ)
    (video : List Frame) (chunk_size : ℕ) : EmbedOut :=
  let message_bits := genMessage r
  let chunks := chunkList chunk_size video
  { output := (chunks.map (fun c => process_video_chunk embed c message_bits)).flatten
    returned := message_bits
    msgsSupplied := chunks.map (fun _ => message_bits) }

/-- `analyze_video_chunk(chunk)`: normalize, run `video_model.detect`, and
drop the first predicted position of every per-frame row
(`outputs["preds"][:, 1:]`). -/
def analyze_video_chunk (detect : List Frame → List (List ℚ))
    (chunk : List Frame) : List (List ℚ) :=
  (detect (normalizeChunk chunk)).map (fun row => row.drop 1)

/-- Failure modes for detection. `catEmptyList` is the source's own failure:
`torch.cat` raises when handed an empty list of tensors, the only failing
path of the `analyze_video` body. `emptyVideoError` is modelled from the
spec's words (an explicit zero-frame check raising `EmptyVideoError`); the
translated code never produces it, and the two are kept side by side so the
spec's claim can be compared against the code's actual behavior. -/
inductive AnalyzeErr where
  | catEmptyList
  | emptyVideoError
  deriving DecidableEq

/-- Column-wise arithmetic mean, the semantics of `tensor.mean(dim=0)` on a
rectangular batch of rows. -/
def meanRows (rows : List (List ℚ)) : List ℚ :=
  match rows with
  | [] => []
  | r :: _ => (List.range r.length).map
      (fun j => ((rows.map (fun row => row.getD j 0)).sum) / rows.length)

/-- `analyze_video(input_path, chunk_size)`: run `analyze_video_chunk` on
every chunk in temporal order, `torch.cat` the per-frame rows along the
frame axis (raising if the collection is empty) and average across frames. -/
def analyze_video (detect : List Frame → List (List ℚ))
    (video : List Frame) (chunk_size : ℕ) : Except AnalyzeErr (List ℚ) :=
  let soft_msgs := (chunkList chunk_size video).map (analyze_video_chunk detect)
  if soft_msgs.isEmpty then
    Except.error AnalyzeErr.catEmptyList
  else
    let all_msgs := soft_msgs.flatten
    Except.ok (meanRows all_msgs)

/-- All per-frame prediction rows of a video, before the first position is
discarded: the concatenation, chunk by chunk in temporal order, of
`video_model.detect`'s output on each normalized chunk. -/
def allRows (detect : List Frame → List (List ℚ))
    (video : List Frame) (chunk_size : ℕ) : List (List ℚ) :=
  ((chunkList chunk_size video).map (fun c => detect (normalizeChunk c))).flatten

theorem chunksGo_nil (N fuel : ℕ) : chunksGo N fuel [] = [] := by
  cases fuel <;> rfl

theorem chunksGo_flatten (N : ℕ) (hN : 1 ≤ N) :
    ∀ (fuel : ℕ) (xs : List Frame), xs.length ≤ fuel →
      (chunksGo N fuel xs).flatten = xs := by
  intro fuel
  induction fuel with
  | zero =>
    intro xs h
    have hx : xs = [] := List.eq_nil_of_length_eq_zero (Nat.le_zero.mp h)
    subst hx; rfl
  | succ f ih =>
    intro xs h
    cases xs with
    | nil => rfl
    | cons x t =>
      simp only [chunksGo, List.flatten_cons]
      rw [ih ((x :: t).drop N)
        (by simp only [List.length_drop, List.length_cons] at h ⊢; omega)]
      exact List.take_append_drop N (x :: t)

theorem chunkList_flatten (N : ℕ) (hN : 1 ≤ N) (xs : List Frame) :
    (chunkList N xs).flatten = xs :=
  chunksGo_flatten N hN xs.length xs le_rfl

theorem chunksGo_count (N : ℕ) (hN : 1 ≤ N) :
    ∀ (fuel : ℕ) (xs : List Frame), xs.length ≤ fuel →
      (chunksGo N fuel xs).length = (xs.length + N - 1) / N := by
  intro fuel
  induction fuel with
  | zero =>
    intro xs h
    have hx : xs = [] := List.eq_nil_of_length_eq_zero (Nat.le_zero.mp h)
    subst hx
    simp [chunksGo, Nat.div_eq_of_lt (show N - 1 < N by omega)]
  | succ f ih =>
    intro xs h
    cases xs with
    | nil => simp [chunksGo, Nat.div_eq_of_lt (show N - 1 < N by omega)]
    | cons x t =>
      simp only [chunksGo, List.length_cons]
      rw [ih ((x :: t).drop N)
        (by simp only [List.length_drop, List.length_cons] at h ⊢; omega)]
      simp only [List.length_drop, List.length_cons]
      have h2 : t.length + 1 + N - 1 = t.length + N := by omega
      rw [h2, Nat.add_div_right _ (show 0 < N by omega)]
      rcases Nat.lt_or_ge (t.length + 1) N with hlt | hge
      · have h1 : t.length + 1 - N + N - 1 = N - 1 := by omega
        rw [h1, Nat.div_eq_of_lt (show N - 1 < N by omega),
          Nat.div_eq_of_lt (show t.length < N by omega)]
      · have h1 : t.length + 1 - N + N - 1 = t.length := by omega
        rw [h1]

theorem chunkList_count (N : ℕ) (hN : 1 ≤ N) (xs : List Frame) :
    (chunkList N xs).length = (xs.length + N - 1) / N :=
  chunksGo_count N hN xs.length xs le_rfl

theorem chunksGo_mem_length (N : ℕ) (hN : 1 ≤ N) :
    ∀ (fuel : ℕ) (xs : List Frame), xs.length ≤ fuel →
      ∀ c ∈ chunksGo N fuel xs, 1 ≤ c.length ∧ c.length ≤ N := by
  intro fuel
  induction fuel with
  | zero =>
    intro xs h c hc
    have hx : xs = [] := List.eq_nil_of_length_eq_zero (Nat.le_zero.mp h)
    subst hx; simp [chunksGo] at hc
  | succ f ih =>
    intro xs h
    cases xs with
    | nil => intro c hc; simp [chunksGo] at hc
    | cons x t =>
      intro c hc
      simp only [chunksGo, List.mem_cons] at hc
      rcases hc with hc | hc
      · subst hc
        simp only [List.length_take, List.length_cons]
        omega
      · exact ih ((x :: t).drop N)
          (by simp only [List.length_drop, List.length_cons] at h ⊢; omega) c hc

theorem chunksGo_dropLast_length (N : ℕ) (hN : 1 ≤ N) :
    ∀ (fuel : ℕ) (xs : List Frame), xs.length ≤ fuel →
      ∀ c ∈ (chunksGo N fuel xs).dropLast, c.length = N := by
  intro fuel
  induction fuel with
  | zero =>
    intro xs h c hc
    have hx : xs = [] := List.eq_nil_of_length_eq_zero (Nat.le_zero.mp h)
    subst hx; simp [chunksGo] at hc
  | succ f ih =>
    intro xs h
    cases xs with
    | nil => intro c hc; simp [chunksGo] at hc
    | cons x t =>
      intro c hc
      simp only [chunksGo] at hc
      rcases hrest : chunksGo N f ((x :: t).drop N) with _ | ⟨y, ys⟩
      · rw [hrest] at hc; simp at hc
      · rw [hrest] at hc
        rw [List.dropLast_cons₂] at hc
        rcases List.mem_cons.mp hc with hc1 | hc1
        · subst hc1
          have hne : (x :: t).drop N ≠ [] := by
            intro hd
            rw [hd, chunksGo_nil] at hrest
            exact List.cons_ne_nil y ys hrest.symm
          have hlen : N < (x :: t).length := by
            by_contra hle
            exact hne (List.drop_eq_nil_of_le (Nat.not_lt.mp hle))
          simp only [List.length_cons] at hlen
          simp only [List.length_take, List.length_cons]
          omega
        · rw [← hrest] at hc1
          exact ih ((x :: t).drop N)
            (by simp only [List.length_drop, List.length_cons] at h ⊢; omega) c hc1

theorem chunkList_dropLast_length (N : ℕ) (hN : 1 ≤ N) (xs : List Frame) :
    ∀ c ∈ (chunkList N xs).dropLast, c.length = N :=
  chunksGo_dropLast_length N hN xs.length xs le_rfl

theorem getD_drop_one (row : List ℚ) (j : ℕ) :
    (row.drop 1).getD j 0 = row.getD (j + 1) 0 := by
  cases row <;> simp [List.getD]

theorem meanRows_rect (rows : List (List ℚ)) (M : ℕ) (hne : rows ≠ [])
    (hM : ∀ r ∈ rows, r.length = M) :
    meanRows rows = (List.range M).map
      (fun j => ((rows.map (fun row => row.getD j 0)).sum) / rows.length) := by
  cases rows with
  | nil => exact absurd rfl hne
  | cons r t =>
    simp only [meanRows]
    rw [hM r (List.mem_cons_self r t)]

theorem allRows_length (detect : List Frame → List (List ℚ))
    (video : List Frame) (N : ℕ) (hN : 1 ≤ N)
    (hframes : ∀ c, (detect c).length = c.length) :
    (allRows detect video N).length = video.length := by
  unfold allRows
  rw [List.length_flatten, List.map_map]
  have hmap : (chunkList N video).map
      (List.length ∘ fun c => detect (normalizeChunk c))
      = (chunkList N video).map List.length := by
    apply List.map_congr_left
    intro c hc
    simp [Function.comp, hframes, normalizeChunk]
  rw [hmap, ← List.length_flatten, chunkList_flatten N hN]

/-- C1: for a video with at least one frame, `analyze_video` walks the
chunks in temporal order, drops the first predicted bit position of each
per-frame row of `model.detect`'s output, concatenates all per-frame
predictions along the frame axis, and returns for every remaining bit
position the arithmetic mean across all frames, as soft rational scores
(`Except.ok`, no thresholding). -/
theorem C1_analyze_video_soft_mean (detect : List Frame → List (List ℚ))
    (video : List Frame) (N L : ℕ) (hv : video ≠ []) (hN : 1 ≤ N)
    (hframes : ∀ c, (detect c).length = c.length)
    (hwidth : ∀ c row, row ∈ detect c → row.length = L) :
    analyze_video detect video N =
      Except.ok ((List.range (L - 1)).map (fun j =>
        ((allRows detect video N).map (fun row => row.getD (j + 1) 0)).sum
          / (video.length : ℚ))) ∧
    (allRows detect video N).length = video.length := by
  have hAR := allRows_length detect video N hN hframes
  refine ⟨?_, hAR⟩
  have hchunks : chunkList N video ≠ [] := by
    intro hcn
    apply hv
    have hfl := chunkList_flatten N hN video
    rw [hcn] at hfl
    simpa using hfl.symm
  have hrows : (allRows detect video N).map (fun row => row.drop 1)
      = ((chunkList N video).map (analyze_video_chunk detect)).flatten := by
    unfold allRows
    rw [List.map_flatten, List.map_map]
    apply congrArg List.flatten
    apply List.map_congr_left
    intro c hc
    simp [analyze_video_chunk, Function.comp]
  have hrne : (allRows detect video N).map (fun row => row.drop 1) ≠ [] := by
    intro hemp
    have : (allRows detect video N) = [] := by simpa using hemp
    rw [this] at hAR
    exact hv (List.eq_nil_of_length_eq_zero hAR.symm)
  have hM : ∀ rw1 ∈ (allRows detect video N).map (fun row => row.drop 1),
      rw1.length = L - 1 := by
    intro rw1 hrw
    rcases List.mem_map.mp hrw with ⟨row, hrowmem, hrweq⟩
    rcases List.mem_flatten.mp hrowmem with ⟨l, hl, hrl⟩
    rcases List.mem_map.mp hl with ⟨c, _, hceq⟩
    rw [← hceq] at hrl
    have := hwidth _ row hrl
    rw [← hrweq]
    simp [List.length_drop, this]
  simp only [analyze_video]
  rw [if_neg (by simp [List.isEmpty_iff, hchunks])]
  rw [← hrows, meanRows_rect _ (L - 1) hrne hM]
  apply congrArg
  apply List.map_congr_left
  intro j hj
  rw [List.map_map]
  have hcongr : (allRows detect video N).map
      ((fun row => row.getD j 0) ∘ (fun row => row.drop 1))
      = (allRows detect video N).map (fun row => row.getD (j + 1) 0) := by
    apply List.map_congr_left
    intro row hrow
    simp [Function.comp, getD_drop_one]
  rw [hcongr]
  rw [List.length_map, hAR]

/-- C2: the chunk loop of `embed_video` partitions the frames into
`ceil(n/N)` consecutive chunks in temporal order, each of size `N` except a
possibly shorter final chunk, writing every frame exactly once, so the
output frame count equals the input frame count (assuming the model's
contract that `embed` preserves the chunk shape). -/
theorem C2_embed_video_partition (embed : List Frame → List ℕ → List Frame)
    (r : ℕ → ℕ) (video : List Frame) (N : ℕ) (hN : 1 ≤ N)
    (hembed : ∀ c m, (embed c m).length = c.length) :
    (chunkList N video).flatten = video ∧
    (chunkList N video).length = (video.length + N - 1) / N ∧
    (∀ c ∈ (chunkList N video).dropLast, c.length = N) ∧
    (∀ c ∈ chunkList N video, 1 ≤ c.length ∧ c.length ≤ N) ∧
    (embed_video embed r video N).output.length = video.length := by
  refine ⟨chunkList_flatten N hN video, chunkList_count N hN video,
          chunkList_dropLast_length N hN video,
          chunksGo_mem_length N hN video.length video le_rfl, ?_⟩
  simp only [embed_video]
  rw [List.length_flatten, List.map_map]
  have hmap : (chunkList N video).map
      (List.length ∘ fun c => process_video_chunk embed c (genMessage r))
      = (chunkList N video).map List.length := by
    apply List.map_congr_left
    intro c hc
    simp [Function.comp, process_video_chunk, hembed, normalizeChunk]
  rw [hmap, ← List.length_flatten, chunkList_flatten N hN]

/-- Witness for C1: a 3-frame video analyzed with chunk size 2 under a
detector that predicts `[9, 3, 5]` for every frame yields the soft message
`[3, 5]` (the leading `9` is the discarded confidence position), and the
concatenated prediction rows cover all 3 frames. -/
theorem C1_analyze_video_soft_mean_witness :
    analyze_video (fun c => c.map (fun _ => ([9, 3, 5] : List ℚ))) [[1], [2], [3]] 2
      = Except.ok [3, 5] ∧
    (allRows (fun c => c.map (fun _ => ([9, 3, 5] : List ℚ))) [[1], [2], [3]] 2).length = 3 := by
  have h := C1_analyze_video_soft_mean (fun c => c.map (fun _ => ([9, 3, 5] : List ℚ)))
    [[1], [2], [3]] 2 3 (by decide) (by decide)
    (fun c => by simp)
    (fun c row hrow => by
      rcases List.mem_map.mp hrow with ⟨f, _, hf⟩
      rw [← hf]; rfl)
  refine ⟨?_, h.2⟩
  rw [h.1]
  norm_num [allRows, chunkList, chunksGo, normalizeChunk, List.range_succ]

/-- Witness for C2: a 20-frame video with chunk size 8 is split into exactly
3 chunks of sizes 8, 8, 4, and the embedded output has 20 frames. -/
theorem C2_embed_video_partition_witness :
    (chunkList 8 (List.replicate 20 ([0] : Frame))).map List.length = [8, 8, 4] ∧
    (embed_video (fun c _ => c) (fun _ => 0) (List.replicate 20 ([0] : Frame)) 8).output.length
      = 20 := by
  have h := C2_embed_video_partition (fun c _ => c) (fun _ => 0)
    (List.replicate 20 ([0] : Frame)) 8 (by decide) (fun c m => rfl)
  exact ⟨by decide, by rw [h.2.2.2.2]; decide⟩

/-- C3: `embed_video` draws exactly one 96-bit message from the injected
random source before the chunk loop, supplies that same message value to
`model.embed` for every chunk, and returns that message to the caller;
every length-96 bit list is attainable from some random source, matching
the uniform per-bit draw of `torch.randint(0, 2, (1, 96))`. -/
theorem C3_single_random_message (embed : List Frame → List ℕ → List Frame)
    (r : ℕ → ℕ) (video : List Frame) (N : ℕ) :
    (embed_video embed r video N).returned = genMessage r ∧
    (genMessage r).length = 96 ∧
    (∀ b ∈ genMessage r, b = 0 ∨ b = 1) ∧
    (embed_video embed r video N).msgsSupplied
      = List.replicate (chunkList N video).length (genMessage r) ∧
    (∀ bs : List ℕ, bs.length = 96 → (∀ b ∈ bs, b = 0 ∨ b = 1) →
      ∃ r2 : ℕ → ℕ, genMessage r2 = bs) := by
  refine ⟨rfl, by simp [genMessage], ?_, ?_, ?_⟩
  · intro b hb
    rcases List.mem_map.mp hb with ⟨i, _, hi⟩
    omega
  · show (chunkList N video).map (fun _ => genMessage r) = _
    rw [List.map_const']
  · intro bs hlen hbits
    refine ⟨fun i => bs.getD i 0, ?_⟩
    apply List.ext_getElem
    · simp [genMessage, hlen]
    · intro i h1 h2
      simp only [genMessage, List.getElem_map, List.getElem_range]
      rw [List.getD_eq_getElem bs 0 h2]
      have hmem : bs[i] ∈ bs := List.getElem_mem h2
      have := hbits bs[i] hmem
      omega

/-- Witness for C3: with the all-zero random source, a one-chunk video gets
the all-zero 96-bit message supplied once and returned; the all-ones
message is attainable from another source. -/
theorem C3_single_random_message_witness :
    (embed_video (fun c _ => c) (fun _ => 0) [[1]] 8).returned = genMessage (fun _ => 0) ∧
    (genMessage (fun _ => 0)).length = 96 ∧
    (embed_video (fun c _ => c) (fun _ => 0) [[1]] 8).msgsSupplied
      = List.replicate 1 (genMessage (fun _ => 0)) ∧
    (∃ r2 : ℕ → ℕ, genMessage r2 = List.replicate 96 1) := by
  have h := C3_single_random_message (fun c _ => c) (fun _ => 0) [[1]] 8
  refine ⟨h.1, h.2.1, ?_, ?_⟩
  · rw [h.2.2.2.1]
    norm_num [chunkList, chunksGo]
  · exact h.2.2.2.2 (List.replicate 96 1) (by simp)
      (fun b hb => Or.inr (List.eq_of_mem_replicate hb))

/-- Counterexample to C4 as stated: on a zero-frame video, `analyze_video`
does not raise `EmptyVideoError` through an explicit emptiness check — the
body has no such check and the failure it actually hits is `torch.cat`
raising on the empty list of per-chunk predictions. -/
theorem C4_counterexample :
    analyze_video (fun c => c.map (fun _ => ([9, 3, 5] : List ℚ))) [] 8
      = Except.error AnalyzeErr.catEmptyList ∧
    AnalyzeErr.catEmptyList ≠ AnalyzeErr.emptyVideoError :=
  ⟨rfl, by decide⟩

/-- C4 (amended): for every zero-frame input video, `analyze_video` fails —
the chunk loop collects no predictions and the `torch.cat` call raises on
the empty collection — so it never returns NaN or any averaged value; the
failure is this generic concatenation error, not an `EmptyVideoError` from
an explicit emptiness check. -/
theorem C4_zero_frames_fail (detect : List Frame → List (List ℚ))
    (N : ℕ) (hN : 1 ≤ N) :
    analyze_video detect [] N = Except.error AnalyzeErr.catEmptyList := rfl

/-- Witness for C4 (amended): the default chunk size 8 on an empty video. -/
theorem C4_zero_frames_fail_witness :
    (1 : ℕ) ≤ 8 ∧
    analyze_video (fun c => c.map (fun _ => ([9, 3, 5] : List ℚ))) [] 8
      = Except.error AnalyzeErr.catEmptyList :=
  ⟨by decide, C4_zero_frames_fail (fun c => c.map (fun _ => ([9, 3, 5] : List ℚ))) 8 (by decide)⟩

/-- C10: the denormalization of `process_video_chunk` multiplies by 255 and
casts with `.byte()` — truncation toward zero followed by wrap-around
modulo 256, with no clamping: a model output of `1.2` writes pixel 50 (not
a saturated 255) and an output of `-0.1` writes pixel 231 (not 0). -/
theorem C10_denorm_wraps_not_clamps :
    (∀ v : ℚ, denormPixel v = (((truncTowardZero (v * 255)).emod 256 : ℤ) : ℚ)) ∧
    process_video_chunk (fun _ _ => [[(6 : ℚ)/5, -(1 : ℚ)/10]]) [[0]] [] = [[50, 231]] ∧
    denormPixel (6/5) ≠ 255 ∧ denormPixel (-1/10) ≠ 0 := by
  have hc : ⌈(-(51/2) : ℚ)⌉ = -25 := by norm_num [Int.ceil_eq_iff]
  refine ⟨fun v => rfl, ?_, ?_, ?_⟩
  · norm_num [process_video_chunk, normalizeChunk, denormPixel, byteCast, truncTowardZero, hc]
  · norm_num [denormPixel, byteCast, truncTowardZero]
  · norm_num [denormPixel, byteCast, truncTowardZero, hc]

/-- The augmentation classes of the `name2aug` catalog in `augmenter.py`.
Their bodies live in `geometric.py`, `valuemetric.py` and `video.py`, which
are external to the analyzed sources; here only their identity and Python
class name matter. -/
inductive AugClass where
  | rotate | resize | crop | perspective | hflip | identity
  | jpeg | gaussianBlur | medianFilter
  | brightness | contrast | saturation | hue
  | videoCompression | h264
  deriving DecidableEq

/-- The Python `__class__.__name__` of each augmentation class. -/
def className : AugClass → String
  | AugClass.rotate => "Rotate"
  | AugClass.resize => "Resize"
  | AugClass.crop => "Crop"
  | AugClass.perspective => "Perspective"
  | AugClass.hflip => "HorizontalFlip"
  | AugClass.identity => "Identity"
  | AugClass.jpeg => "JPEG"
  | AugClass.gaussianBlur => "GaussianBlur"
  | AugClass.medianFilter => "MedianFilter"
  | AugClass.brightness => "Brightness"
  | AugClass.contrast => "Contrast"
  | AugClass.saturation => "Saturation"
  | AugClass.hue => "Hue"
  | AugClass.videoCompression => "VideoCompressorAugmenter"
  | AugClass.h264 => "H264"

/-- The `name2aug` dictionary of `augmenter.py`: configuration name to
augmentation class. -/
def name2aug (s : String) : Option AugClass :=
  if s = "rotate" then some AugClass.rotate
  else if s = "resize" then some AugClass.resize
  else if s = "crop" then some AugClass.crop
  else if s = "perspective" then some AugClass.perspective
  else if s = "hflip" then some AugClass.hflip
  else if s = "identity" then some AugClass.identity
  else if s = "jpeg" then some AugClass.jpeg
  else if s = "gaussian_blur" then some AugClass.gaussianBlur
  else if s = "median_filter" then some AugClass.medianFilter
  else if s = "brightness" then some AugClass.brightness
  else if s = "contrast" then some AugClass.contrast
  else if s = "saturation" then some AugClass.saturation
  else if s = "hue" then some AugClass.hue
  else if s = "video_compression" then some AugClass.videoCompression
  else if s = "h264" then some AugClass.h264
  else none

/-- Modelled from the spec: the "video-only" tag for codec-recompression
augmentations. Both `VideoCompressorAugmenter` and `H264` (defined in the
external `videoseal/augmentation/video.py`) recompress their input through
a video codec. -/
def videoOnlyCodec : AugClass → Bool
  | AugClass.videoCompression => true
  | AugClass.h264 => true
  | _ => false

/-- Construction failures of `Augmenter.parse_augmentations`:
`unknownAug` is the `ValueError` raised for a name missing from `name2aug`,
and `zeroWeightSum` is the `ZeroDivisionError` raised when the weights are
normalized by a zero total — the spec groups both under `ConfigError`. -/
inductive ConfigError where
  | unknownAug (name : String)
  | zeroWeightSum
  deriving DecidableEq

/-- The name-resolution loop of `parse_augmentations`: each configured name
is looked up in `name2aug` in order, failing at the first unknown name. -/
def resolveAugs : List (String × ℚ) → Except ConfigError (List (AugClass × ℚ))
  | [] => Except.ok []
  | (nm, w) :: rest =>
    match name2aug nm with
    | none => Except.error (ConfigError.unknownAug nm)
    | some a =>
      match resolveAugs rest with
      | Except.error e => Except.error e
      | Except.ok tl => Except.ok ((a, w) :: tl)

/-- `Augmenter.parse_augmentations(augs, augs_params)`: resolve every name,
then normalize the weights by their sum. The normalizing comprehension
divides once per element, so an empty mapping performs no division (and
raises nothing), while a nonempty mapping with zero total raises at the
first element. Parameter dictionaries only feed the external constructors
and are omitted. -/
def parse_augmentations (augs : List (String × ℚ)) :
    Except ConfigError (List AugClass × List ℚ) :=
  match resolveAugs augs with
  | Except.error e => Except.error e
  | Except.ok pairs =>
    let total := (pairs.map Prod.snd).sum
    if pairs = [] then Except.ok ([], [])
    else if total = 0 then Except.error ConfigError.zeroWeightSum
    else Except.ok (pairs.map Prod.fst, pairs.map (fun p => p.2 / total))

/-- A batched image tensor, reduced to its spatial shape and flattened
pixel data. -/
structure Img where
  h : ℕ
  w : ℕ
  px : List ℚ
  deriving DecidableEq

/-- Pointwise ternary zip used by the blend. -/
def zipWith3Q (f : ℚ → ℚ → ℚ → ℚ) : List ℚ → List ℚ → List ℚ → List ℚ
  | a :: as, b :: bs, c :: cs => f a b c :: zipWith3Q f as bs cs
  | _, _, _ => []

/-- The watermark blend of `Augmenter.forward` (training branch):
`imgs_w * mask_targets + imgs * (1 - mask_targets)`. -/
def blend (imgs_w imgs mask : Img) : Img :=
  ⟨imgs_w.h, imgs_w.w,
    zipWith3Q (fun a b c => a * c + b * (1 - c)) imgs_w.px imgs.px mask.px⟩

/-- `torch.ones_like(imgs_w)[:, 0:1, :, :]`: an all-ones single-channel
mask with the spatial shape of `imgs_w`. -/
def onesLikeMask (img : Img) : Img :=
  ⟨img.h, img.w, List.replicate img.px.length 1⟩

/-- The state of `Augmenter` relevant to `augment`/`forward`: the parsed
catalog subset, the normalized selection weights, and `num_augs`. -/
structure Augmenter where
  augs : List AugClass
  aug_probs : List ℚ
  num_augs : ℕ
  deriving DecidableEq

/-- The per-call substitution of `Augmenter.augment`:
`aug if aug.__class__.__name__ != 'VideoCompressorAugmenter' else Identity()`. -/
def substAug (a : AugClass) : AugClass :=
  if className a = "VideoCompressorAugmenter" then AugClass.identity else a

/-- The augmentation list `augment` actually samples from: the stored
catalog itself for video inputs, or a fresh substituted list otherwise. -/
def augsFor (A : Augmenter) (is_video : Bool) : List AugClass :=
  if is_video then A.augs else A.augs.map substAug

/-- `Augmenter.augment(image, mask, is_video, do_resize)`. The multinomial
draw is injected as the index `idxv`; `applyAug` runs the selected external
transformation on image and mask, and `interp` is
`nn.functional.interpolate` (image, target height, target width, mode,
antialias). -/
def augment (applyAug : AugClass → Img → Img → Img × Img)
    (interp : Img → ℕ → ℕ → String → Bool → Img)
    (A : Augmenter) (idxv : ℕ) (image mask : Img)
    (is_video do_resize : Bool) : Img × Img × String :=
  let augs := augsFor A is_video
  let selected_aug := augs.getD idxv AugClass.identity
  if do_resize then
    let p := applyAug selected_aug image mask
    if (p.1.h, p.1.w) ≠ (image.h, image.w) then
      (interp p.1 image.h image.w "bilinear" true,
       interp p.2 image.h image.w "bilinear" true,
       className selected_aug)
    else
      (p.1, p.2, className selected_aug)
  else
    let p := applyAug selected_aug image mask
    (p.1, p.2, className selected_aug)

/-- The transformation selected and applied by one `augment` call, before
any shape restoration. -/
def appliedPair (applyAug : AugClass → Img → Img → Img × Img)
    (A : Augmenter) (idxv : ℕ) (image mask : Img) (is_video : Bool) : Img × Img :=
  applyAug ((augsFor A is_video).getD idxv AugClass.identity) image mask

/-- A Python runtime failure of `Augmenter.forward`: reading a local
variable that has not been assigned on the executed path. -/
inductive PyErr where
  | unboundLocal (v : String)
  deriving DecidableEq

/-- The training-branch loop of `Augmenter.forward`: apply `augment`
sequentially, feeding each output mask to the next call and collecting the
per-step labels. `k` is the running step index used for the injected
multinomial draws. -/
def trainLoop (applyAug : AugClass → Img → Img → Img × Img)
    (interp : Img → ℕ → ℕ → String → Bool → Img)
    (A : Augmenter) (idx : ℕ → ℕ) (is_video : Bool) :
    ℕ → ℕ → Img → Img → List String → Img × Img × List String
  | 0, _, i, m, labs => (i, m, labs)
  | n + 1, k, i, m, labs =>
    let r := augment applyAug interp A (idx k) i m is_video false
    trainLoop applyAug interp A idx is_video n (k + 1) r.1 r.2.1 (labs ++ [r.2.2])

/-- The evaluation-branch loop of `Augmenter.forward`, with Python local
variables that may be unassigned made explicit as `Option`: each iteration
evaluates `self.augment(imgs_aug, ...)`, reading `imgs_aug`, and the final
`return imgs_aug, mask_targets, selected_aug` reads `imgs_aug` then
`selected_aug`. Neither variable is ever assigned before its first read on
this branch. -/
def evalLoop (applyAug : AugClass → Img → Img → Img × Img)
    (interp : Img → ℕ → ℕ → String → Bool → Img)
    (A : Augmenter) (idx : ℕ → ℕ) (is_video : Bool) :
    ℕ → ℕ → Option Img → Img → List String → Option String →
      Except PyErr (Img × Img × String)
  | 0, _, imgsAug, maskT, _, selAug =>
    match imgsAug with
    | none => Except.error (PyErr.unboundLocal "imgs_aug")
    | some i =>
      match selAug with
      | none => Except.error (PyErr.unboundLocal "selected_aug")
      | some s => Except.ok (i, maskT, s)
  | n + 1, k, imgsAug, maskT, labs, selAug =>
    match imgsAug with
    | none => Except.error (PyErr.unboundLocal "imgs_aug")
    | some i =>
      let r := augment applyAug interp A (idx k) i maskT is_video false
      evalLoop applyAug interp A idx is_video n (k + 1) (some r.1) r.2.1
        (labs ++ [r.2.2]) selAug

/-- `Augmenter.forward(imgs_w, imgs, masks, is_video)`. `training` is the
`nn.Module` training flag, `maskEmb` the external mask embedder, and `idx`
the injected multinomial draws. The training branch blends, augments
`num_augs` times threading the mask, and joins the step labels with `"+"`;
the evaluation branch starts from an all-ones mask but reads the local
`imgs_aug` before any assignment. -/
def forward (applyAug : AugClass → Img → Img → Img × Img)
    (interp : Img → ℕ → ℕ → String → Bool → Img)
    (maskEmb : Img → Option Img → Img)
    (A : Augmenter) (training : Bool) (idx : ℕ → ℕ)
    (imgs_w imgs : Img) (masks : Option Img) (is_video : Bool) :
    Except PyErr (Img × Img × String) :=
  if training then
    let mask_targets := maskEmb imgs_w masks
    let imgs_aug := blend imgs_w imgs mask_targets
    let r := trainLoop applyAug interp A idx is_video A.num_augs 0 imgs_aug mask_targets []
    Except.ok (r.1, r.2.1, String.intercalate "+" r.2.2)
  else
    let mask_targets := onesLikeMask imgs_w
    evalLoop applyAug interp A idx is_video A.num_augs 0 none mask_targets [] none

/-- The label reported for the step-`k` `augment` call: the class name of
the sampled (and possibly substituted) augmentation; it depends only on
the catalog, the video flag and the draw, not on the image state. -/
def labelOf (A : Augmenter) (is_video : Bool) (idx : ℕ → ℕ) (k : ℕ) : String :=
  className ((augsFor A is_video).getD (idx k) AugClass.identity)

/-- One step of the specification fold for the training branch: augment the
frame/mask pair with the step-`k` draw. -/
def stepAug (applyAug : AugClass → Img → Img → Img × Img)
    (interp : Img → ℕ → ℕ → String → Bool → Img)
    (A : Augmenter) (idx : ℕ → ℕ) (is_video : Bool)
    (st : Img × Img) (k : ℕ) : Img × Img :=
  let r := augment applyAug interp A (idx k) st.1 st.2 is_video false
  (r.1, r.2.1)

theorem augment_label (applyAug : AugClass → Img → Img → Img × Img)
    (interp : Img → ℕ → ℕ → String → Bool → Img)
    (A : Augmenter) (idxv : ℕ) (image mask : Img) (is_video do_resize : Bool) :
    (augment applyAug interp A idxv image mask is_video do_resize).2.2
      = className ((augsFor A is_video).getD idxv AugClass.identity) := by
  simp only [augment]
  split
  · split <;> rfl
  · rfl

theorem trainLoop_spec (applyAug : AugClass → Img → Img → Img × Img)
    (interp : Img → ℕ → ℕ → String → Bool → Img)
    (A : Augmenter) (idx : ℕ → ℕ) (is_video : Bool) :
    ∀ (n k : ℕ) (i m : Img) (labs : List String),
      trainLoop applyAug interp A idx is_video n k i m labs
        = (((List.range' k n).foldl (stepAug applyAug interp A idx is_video) (i, m)).1,
           ((List.range' k n).foldl (stepAug applyAug interp A idx is_video) (i, m)).2,
           labs ++ (List.range' k n).map (labelOf A is_video idx)) := by
  intro n
  induction n with
  | zero =>
    intro k i m labs
    simp [trainLoop, List.range']
  | succ n ih =>
    intro k i m labs
    rw [trainLoop, ih (k + 1)]
    rw [List.range'_succ]
    simp only [List.foldl_cons, List.map_cons]
    rw [augment_label, List.append_assoc]
    rfl

theorem resolveAugs_unknown :
    ∀ (augs : List (String × ℚ)), (∃ p ∈ augs, name2aug p.1 = none) →
      ∃ e : ConfigError, resolveAugs augs = Except.error e := by
  intro augs
  induction augs with
  | nil => rintro ⟨p, hp, _⟩; simp at hp
  | cons q t ih =>
    rintro ⟨p, hp, hnone⟩
    obtain ⟨nm, wq⟩ := q
    rcases List.mem_cons.mp hp with h1 | h1
    · subst h1
      exact ⟨ConfigError.unknownAug nm, by simp [resolveAugs, hnone]⟩
    · cases hq : name2aug nm with
      | none => exact ⟨ConfigError.unknownAug nm, by simp [resolveAugs, hq]⟩
      | some a =>
        rcases ih ⟨p, h1, hnone⟩ with ⟨e, he⟩
        exact ⟨e, by simp [resolveAugs, hq, he]⟩

theorem resolveAugs_ok_snd :
    ∀ (augs : List (String × ℚ)) (pairs : List (AugClass × ℚ)),
      resolveAugs augs = Except.ok pairs →
        pairs.map Prod.snd = augs.map Prod.snd := by
  intro augs
  induction augs with
  | nil =>
    intro pairs hres
    simp only [resolveAugs] at hres
    cases hres
    rfl
  | cons q t ih =>
    intro pairs hres
    obtain ⟨nm, wq⟩ := q
    cases hq : name2aug nm with
    | none => simp [resolveAugs, hq] at hres
    | some a =>
      cases hrt : resolveAugs t with
      | error e => simp [resolveAugs, hq, hrt] at hres
      | ok tl =>
        simp only [resolveAugs, hq, hrt] at hres
        cases hres
        simp [ih tl hrt]

/-- C5 (code bug): in evaluation mode, `Augmenter.forward` does not return
the augmented frames, mask and last label as intended — the evaluation
branch reads the local `imgs_aug` before any assignment, so every
evaluation-mode call raises `UnboundLocalError` for `imgs_aug` (and the
returned `selected_aug` is likewise never assigned on that branch). -/
theorem C5_eval_forward_unbound_local (applyAug : AugClass → Img → Img → Img × Img)
    (interp : Img → ℕ → ℕ → String → Bool → Img)
    (maskEmb : Img → Option Img → Img)
    (A : Augmenter) (idx : ℕ → ℕ) (imgs_w imgs : Img) (masks : Option Img)
    (is_video : Bool) :
    forward applyAug interp maskEmb A false idx imgs_w imgs masks is_video
      = Except.error (PyErr.unboundLocal "imgs_aug") := by
  obtain ⟨au, ap, n⟩ := A
  cases n <;> rfl

/-- C7: in training mode, `Augmenter.forward` blends
`imgs_w * mask + imgs * (1 - mask)` with the mask embedder's output mask,
then applies `augment` sequentially `num_augs` times feeding each step's
output mask to the next step, and returns the final frames and mask
together with all per-step labels joined by `"+"`. -/
theorem C7_training_forward_composite (applyAug : AugClass → Img → Img → Img × Img)
    (interp : Img → ℕ → ℕ → String → Bool → Img)
    (maskEmb : Img → Option Img → Img)
    (A : Augmenter) (idx : ℕ → ℕ) (imgs_w imgs : Img) (masks : Option Img)
    (is_video : Bool) :
    forward applyAug interp maskEmb A true idx imgs_w imgs masks is_video
      = Except.ok
        (((List.range A.num_augs).foldl (stepAug applyAug interp A idx is_video)
            (blend imgs_w imgs (maskEmb imgs_w masks), maskEmb imgs_w masks)).1,
         ((List.range A.num_augs).foldl (stepAug applyAug interp A idx is_video)
            (blend imgs_w imgs (maskEmb imgs_w masks), maskEmb imgs_w masks)).2,
         String.intercalate "+" ((List.range A.num_augs).map (labelOf A is_video idx))) := by
  show Except.ok _ = _
  rw [trainLoop_spec applyAug interp A idx is_video A.num_augs 0]
  rw [← List.range_eq_range']
  simp

/-- Counterexample to C6 as stated: the empty weight mapping has weights
summing to zero, yet construction succeeds — the normalizing comprehension
performs no division on an empty list, so no error of any kind is raised
and an `Augmenter` with an empty catalog is constructed. -/
theorem C6_counterexample :
    parse_augmentations ([] : List (String × ℚ)) = Except.ok ([], []) ∧
    (([] : List (String × ℚ)).map Prod.snd).sum = 0 :=
  ⟨rfl, rfl⟩

/-- C6 (amended): construction with a nonempty weight mapping whose weights
sum to zero, or with any mapping containing a name absent from the catalog,
fails at construction time with a `ConfigError` (the unknown-name
`ValueError` or the zero-sum `ZeroDivisionError`), constructing no
`Augmenter`; and no `forward` call can ever produce such a
misconfiguration error — its only outcomes are a normal result or the
evaluation-branch `UnboundLocalError`. -/
theorem C6_config_error_at_construction (augs : List (String × ℚ))
    (hbad : (augs ≠ [] ∧ (augs.map Prod.snd).sum = 0) ∨
      (∃ p ∈ augs, name2aug p.1 = none)) :
    (∃ e : ConfigError, parse_augmentations augs = Except.error e) ∧
    (∀ (applyAug : AugClass → Img → Img → Img × Img)
       (interp : Img → ℕ → ℕ → String → Bool → Img)
       (maskEmb : Img → Option Img → Img)
       (A : Augmenter) (training : Bool) (idx : ℕ → ℕ)
       (imgs_w imgs : Img) (masks : Option Img) (is_video : Bool),
      (∃ v, forward applyAug interp maskEmb A training idx imgs_w imgs masks is_video
        = Except.ok v) ∨
      forward applyAug interp maskEmb A training idx imgs_w imgs masks is_video
        = Except.error (PyErr.unboundLocal "imgs_aug")) := by
  constructor
  · rcases hbad with ⟨hne, hsum⟩ | hunk
    · cases hres : resolveAugs augs with
      | error e => exact ⟨e, by simp [parse_augmentations, hres]⟩
      | ok pairs =>
        have hsnd := resolveAugs_ok_snd augs pairs hres
        have hpne : pairs ≠ [] := by
          intro hp
          apply hne
          subst hp
          have hlen : (0 : ℕ) = augs.length := by
            have hcl := congrArg List.length hsnd
            simpa using hcl
          exact List.eq_nil_of_length_eq_zero hlen.symm
        have htot : (pairs.map Prod.snd).sum = 0 := by rw [hsnd]; exact hsum
        exact ⟨ConfigError.zeroWeightSum, by
          simp [parse_augmentations, hres, hpne, htot]⟩
    · rcases resolveAugs_unknown augs hunk with ⟨e, he⟩
      exact ⟨e, by simp [parse_augmentations, he]⟩
  · intro applyAug interp maskEmb A training idx imgs_w imgs masks is_video
    cases training with
    | true => exact Or.inl ⟨_, rfl⟩
    | false =>
      refine Or.inr ?_
      obtain ⟨au, ap, n⟩ := A
      cases n <;> rfl

/-- Witness for C6 (amended): a single zero-weighted entry fails at
construction; an unknown name fails with the corresponding error. -/
theorem C6_config_error_at_construction_witness :
    (([("identity", (0 : ℚ))] : List (String × ℚ)) ≠ [] ∧
      (([("identity", (0 : ℚ))] : List (String × ℚ)).map Prod.snd).sum = 0) ∧
    (∃ e : ConfigError, parse_augmentations [("identity", (0 : ℚ))] = Except.error e) ∧
    parse_augmentations [("bogus", (1 : ℚ))]
      = Except.error (ConfigError.unknownAug "bogus") := by
  refine ⟨⟨by decide, by simp⟩, ?_, rfl⟩
  exact (C6_config_error_at_construction [("identity", (0 : ℚ))]
    (Or.inl ⟨by decide, by simp⟩)).1

/-- C8: with `do_resize` requested, `augment` returns frames and mask of
the input's original spatial shape; whenever the selected transformation
altered the frame shape, both frames and mask are resampled by the same
`interpolate` call — same target size, `bilinear` mode, antialias — so they
stay pixel-aligned (assuming the catalog contract that a transformation
keeps mask and frame shapes in step, and that `interpolate` honors its
target size). -/
theorem C8_shape_restoration (applyAug : AugClass → Img → Img → Img × Img)
    (interp : Img → ℕ → ℕ → String → Bool → Img)
    (A : Augmenter) (idxv : ℕ) (image mask : Img) (is_video : Bool)
    (hI : ∀ (i : Img) (hh ww : ℕ) (mo : String) (aa : Bool),
      (interp i hh ww mo aa).h = hh ∧ (interp i hh ww mo aa).w = ww)
    (hA : ∀ (a : AugClass) (i m : Img), m.h = i.h → m.w = i.w →
      (applyAug a i m).2.h = (applyAug a i m).1.h ∧
      (applyAug a i m).2.w = (applyAug a i m).1.w)
    (hmh : mask.h = image.h) (hmw : mask.w = image.w) :
    ((augment applyAug interp A idxv image mask is_video true).1.h = image.h ∧
     (augment applyAug interp A idxv image mask is_video true).1.w = image.w) ∧
    ((augment applyAug interp A idxv image mask is_video true).2.1.h = image.h ∧
     (augment applyAug interp A idxv image mask is_video true).2.1.w = image.w) ∧
    (((appliedPair applyAug A idxv image mask is_video).1.h,
        (appliedPair applyAug A idxv image mask is_video).1.w)
        ≠ (image.h, image.w) →
      (augment applyAug interp A idxv image mask is_video true).1
        = interp (appliedPair applyAug A idxv image mask is_video).1
            image.h image.w "bilinear" true ∧
      (augment applyAug interp A idxv image mask is_video true).2.1
        = interp (appliedPair applyAug A idxv image mask is_video).2
            image.h image.w "bilinear" true) := by
  have hred : augment applyAug interp A idxv image mask is_video true
      = if ((appliedPair applyAug A idxv image mask is_video).1.h,
            (appliedPair applyAug A idxv image mask is_video).1.w)
            ≠ (image.h, image.w)
        then (interp (appliedPair applyAug A idxv image mask is_video).1
                image.h image.w "bilinear" true,
              interp (appliedPair applyAug A idxv image mask is_video).2
                image.h image.w "bilinear" true,
              className ((augsFor A is_video).getD idxv AugClass.identity))
        else ((appliedPair applyAug A idxv image mask is_video).1,
              (appliedPair applyAug A idxv image mask is_video).2,
              className ((augsFor A is_video).getD idxv AugClass.identity)) := rfl
  by_cases hcond : ((appliedPair applyAug A idxv image mask is_video).1.h,
      (appliedPair applyAug A idxv image mask is_video).1.w) ≠ (image.h, image.w)
  · rw [hred, if_pos hcond]
    refine ⟨⟨(hI _ _ _ _ _).1, (hI _ _ _ _ _).2⟩,
            ⟨(hI _ _ _ _ _).1, (hI _ _ _ _ _).2⟩,
            fun _ => ⟨rfl, rfl⟩⟩
  · rw [hred, if_neg hcond]
    have heq : ((appliedPair applyAug A idxv image mask is_video).1.h,
        (appliedPair applyAug A idxv image mask is_video).1.w) = (image.h, image.w) :=
      not_ne_iff.mp hcond
    have h1 : (appliedPair applyAug A idxv image mask is_video).1.h = image.h :=
      congrArg Prod.fst heq
    have h2 : (appliedPair applyAug A idxv image mask is_video).1.w = image.w :=
      congrArg Prod.snd heq
    have hmask := hA ((augsFor A is_video).getD idxv AugClass.identity) image mask hmh hmw
    exact ⟨⟨h1, h2⟩, ⟨hmask.1.trans h1, hmask.2.trans h2⟩,
           fun hcontra => absurd hcontra hcond⟩

/-- A shape-changing stand-in for an external transformation: grows the
height of both frame and mask by one. -/
def bumpAug : AugClass → Img → Img → Img × Img :=
  fun _ i m => (⟨i.h + 1, i.w, []⟩, ⟨m.h + 1, m.w, []⟩)

/-- A stand-in interpolation kernel that honors its target size. -/
def sizeInterp : Img → ℕ → ℕ → String → Bool → Img :=
  fun _ hh ww _ _ => ⟨hh, ww, []⟩

/-- Witness for C8: a 2x3 frame/mask pair run through a height-bumping
transformation with shape restoration comes back 2x3, with both frame and
mask resampled through the same interpolation call. -/
theorem C8_shape_restoration_witness :
    ((augment bumpAug sizeInterp ⟨[AugClass.resize], [1], 1⟩ 0
        ⟨2, 3, []⟩ ⟨2, 3, []⟩ true true).1.h = 2 ∧
     (augment bumpAug sizeInterp ⟨[AugClass.resize], [1], 1⟩ 0
        ⟨2, 3, []⟩ ⟨2, 3, []⟩ true true).1.w = 3) ∧
    ((augment bumpAug sizeInterp ⟨[AugClass.resize], [1], 1⟩ 0
        ⟨2, 3, []⟩ ⟨2, 3, []⟩ true true).2.1.h = 2 ∧
     (augment bumpAug sizeInterp ⟨[AugClass.resize], [1], 1⟩ 0
        ⟨2, 3, []⟩ ⟨2, 3, []⟩ true true).2.1.w = 3) ∧
    (augment bumpAug sizeInterp ⟨[AugClass.resize], [1], 1⟩ 0
        ⟨2, 3, []⟩ ⟨2, 3, []⟩ true true).1
      = sizeInterp (appliedPair bumpAug ⟨[AugClass.resize], [1], 1⟩ 0
          ⟨2, 3, []⟩ ⟨2, 3, []⟩ true).1 2 3 "bilinear" true ∧
    (augment bumpAug sizeInterp ⟨[AugClass.resize], [1], 1⟩ 0
        ⟨2, 3, []⟩ ⟨2, 3, []⟩ true true).2.1
      = sizeInterp (appliedPair bumpAug ⟨[AugClass.resize], [1], 1⟩ 0
          ⟨2, 3, []⟩ ⟨2, 3, []⟩ true).2 2 3 "bilinear" true := by
  have h := C8_shape_restoration bumpAug sizeInterp ⟨[AugClass.resize], [1], 1⟩ 0
    ⟨2, 3, []⟩ ⟨2, 3, []⟩ true
    (fun i hh ww mo aa => ⟨rfl, rfl⟩)
    (fun a i m e1 e2 => ⟨by simp [bumpAug, e1], by simp [bumpAug, e2]⟩)
    rfl rfl
  have hc := h.2.2 (by decide)
  exact ⟨h.1, h.2.1, hc.1, hc.2⟩

/-- Counterexample to C9 as stated: `H264` is a video-only
codec-recompression augmentation, yet a non-video `augment` call does not
substitute it with `Identity` — the substitution in the source tests only
for the class name `VideoCompressorAugmenter`, so `H264` is selected and
applied as-is (the returned label is `"H264"`). -/
theorem C9_counterexample :
    videoOnlyCodec AugClass.h264 = true ∧
    augsFor ⟨[AugClass.h264], [1], 1⟩ false = [AugClass.h264] ∧
    AugClass.h264 ≠ AugClass.identity ∧
    (augment (fun _ i m => (i, m)) (fun i _ _ _ _ => i)
      ⟨[AugClass.h264], [1], 1⟩ 0 ⟨1, 1, [0]⟩ ⟨1, 1, [0]⟩ false false).2.2
      = "H264" := by
  refine ⟨rfl, by decide, by decide, by decide⟩

/-- C9 (amended): a non-video `augment` call samples from a fresh,
per-call list in which exactly the transformations of class
`VideoCompressorAugmenter` are replaced by `Identity`; other codec
augmentations such as `H264` are left in place, and the stored catalog is
untouched — a video-mode call still samples the original list. -/
theorem C9_video_only_substitution (A : Augmenter) :
    augsFor A false = A.augs.map substAug ∧
    augsFor A true = A.augs ∧
    (∀ a : AugClass, substAug a = AugClass.identity ↔
      (a = AugClass.videoCompression ∨ a = AugClass.identity)) ∧
    substAug AugClass.h264 = AugClass.h264 := by
  refine ⟨rfl, rfl, fun a => by cases a <;> decide, by decide⟩

end AWT
